import Mathlib

/-!
Verification of the episodic-memory replay mechanisms of
`conv_split_miniImagenet.py` (function `train_task_sequence` and the
buffer helpers it calls).

Randomness of the numpy RNG is embedded by explicit parameters: a call
`np.random.choice(n, k, replace=False)` is embedded as taking the first
`k` elements of a parameter list `p` that is assumed to be a permutation
of `range n` (the support of sampling without replacement), and
`np.random.shuffle(xs)` is embedded as reordering `xs` by a parameter
position list `sp` assumed to be a permutation of `range xs.length`.
Images and labels are embedded as abstract `Nat` identifiers: the buffer
mechanism never inspects their contents.
-/

set_option linter.unusedVariables false

namespace OrthogSubspace

/-- TOTAL_CLASSES constant (line 59 of the source). -/
def TOTAL_CLASSES : Nat := 100

/-- K_FOR_CROSS_VAL constant (line 64 of the source). -/
def K_FOR_CROSS_VAL : Nat := 3

/-- Embedding of `np.random.choice(n, k, replace=False)`: the RNG
produces some permutation `p` of `List.range n`, and the draw is its
first `k` elements. -/
def npChoice (p : List Nat) (k : Nat) : List Nat := p.take k

/-- Embedding of `np.random.shuffle(xs)` for an index array `xs`: the
RNG produces a position permutation `sp` of `List.range xs.length`, and
the shuffled array has the element of `xs` at position `sp[j]` in
position `j`. -/
def npShuffle (sp xs : List Nat) : List Nat := sp.map (fun i => xs.getD i 0)

/-- mem_filled_so_far of the ER-Reservoir branch (line 508):
`examples_seen_so_far if examples_seen_so_far < episodic_mem_size else episodic_mem_size`. -/
def reservoirFilled (examples_seen episodic_mem_size : Nat) : Nat :=
  if examples_seen < episodic_mem_size then examples_seen else episodic_mem_size

/-- mem_filled_so_far of the ER-Ringbuffer branch (line 534):
`episodic_filled_counter if episodic_filled_counter <= episodic_mem_size else episodic_mem_size`. -/
def ringbufferFilled (episodic_filled_counter episodic_mem_size : Nat) : Nat :=
  if episodic_filled_counter ≤ episodic_mem_size then episodic_filled_counter
  else episodic_mem_size

/-- Index draw of the ER-Reservoir branch (lines 509-512): all of
`np.arange(mem_filled_so_far)` when `mem_filled_so_far < args.eps_mem_batch`,
else `np.random.choice(mem_filled_so_far, args.eps_mem_batch, replace=False)`. -/
def erReservoirDraw (filled k : Nat) (p : List Nat) : List Nat :=
  if filled < k then List.range filled else npChoice p k

/-- Index draw of the ER-Ringbuffer branch (line 535): all of
`np.arange(mem_filled_so_far)` when `mem_filled_so_far <= args.eps_mem_batch`,
else `np.random.choice(mem_filled_so_far, args.eps_mem_batch, replace=False)`. -/
def erRingbufferDraw (filled k : Nat) (p : List Nat) : List Nat :=
  if filled ≤ k then List.range filled else npChoice p k

/-- mem_sample_mask of the A-GEM branch (lines 459-463):
`np.arange(episodic_filled_counter)` when
`episodic_filled_counter <= args.eps_mem_batch`, else
`np.random.choice(episodic_filled_counter, args.eps_mem_batch, replace=False)`.
No shuffle is applied to this draw before it indexes the episodic memory
(contrast lines 513 and 536); the second parameter list `sp` embeds the
shuffle outcome the RNG would have offered and is unused by the code. -/
def agemDraw (episodic_filled_counter k : Nat) (p sp : List Nat) : List Nat :=
  if episodic_filled_counter ≤ k then List.range episodic_filled_counter
  else npChoice p k

/-- er_mem_indices of the ER-Reservoir branch after the shuffle of line 513. -/
def erReservoirIndices (filled k : Nat) (p sp : List Nat) : List Nat :=
  npShuffle sp (erReservoirDraw filled k p)

/-- er_mem_indices of the ER-Ringbuffer branch after the shuffle of line 536
(also the Bn-U-Bm draw of the ER-SUBSPACE-GP branch, lines 631-633). -/
def erRingbufferIndices (filled k : Nat) (p sp : List Nat) : List Nat :=
  npShuffle sp (erRingbufferDraw filled k p)

/-- er_mem_indices of the ER-SUBSPACE task-replay draw before its shuffle
(lines 561-562, also lines 606-607):
`np.arange(mem_offset, mem_offset + args.mem_size*classes_per_task)` with
`mem_offset = tt*args.mem_size*classes_per_task`. -/
def erSubspaceDraw (tt mem_size cpt : Nat) : List Nat :=
  (List.range (mem_size * cpt)).map (fun i => tt * mem_size * cpt + i)

/-- er_mem_indices of the ER-SUBSPACE task-replay draw after the shuffle of
line 563 (also line 608). -/
def erSubspaceIndices (tt mem_size cpt : Nat) (sp : List Nat) : List Nat :=
  npShuffle sp (erSubspaceDraw tt mem_size cpt)

/-- State of one run's episodic memory, as held by `train_task_sequence`
(lines 229-235): parallel image and label arrays, the per-class write
counters `count_cls`, and the reservoir offer counter
`examples_seen_so_far`. -/
structure MemState where
  images : List Nat
  labels : List Nat
  count_cls : Nat → Nat
  seen : Nat

/-- Initial episodic memory of a run (lines 231-235): zero arrays of
length `episodic_mem_size`, zero class counters, zero offer counter. -/
def initMemState (cap : Nat) : MemState :=
  { images := List.replicate cap 0
    labels := List.replicate cap 0
    count_cls := fun _ => 0
    seen := 0 }

/-- episodic_mem_size (line 215): `args.mem_size * total_classes`. -/
def episodic_mem_size (mem_size total_classes : Nat) : Nat :=
  mem_size * total_classes

/-- Modelled from the spec: the body of `update_reservior` lives in
`utils/utils.py`, which is not under src/ (only its import at line 27 and
its call site at line 529 are). Spec section 3, reservoir invariant: while
`examples_seen_so_far < capacity` the offered sample is written at slot
`examples_seen_so_far`; once `examples_seen_so_far >= capacity` the sample
is accepted (at a uniformly chosen slot `< capacity`) or discarded. The
acceptance coin and the slot choice are the explicit parameters `accept` and
`slot`. The function receives `examples_seen_so_far` by value and never
changes the caller's counter. -/
def update_reservior (img lab : Nat) (mem_size : Nat) (accept : Bool)
    (slot : Nat) (s : MemState) : MemState :=
  if s.seen < mem_size then
    { s with images := s.images.set s.seen img, labels := s.labels.set s.seen lab }
  else if accept then
    { s with images := s.images.set slot img, labels := s.labels.set slot lab }
  else s

/-- One iteration of the reservoir-update loop of the ER-Reservoir branch
(lines 528-530): offer one exemplar via `update_reservior`, then the
caller increments `examples_seen_so_far` by one. The randomness consumed
by the offer made at counter value `n` is `rand n`. -/
def offerOne (mem_size : Nat) (rand : Nat → Bool × Nat) (xy : Nat × Nat)
    (s : MemState) : MemState :=
  let r := rand s.seen
  let s1 := update_reservior xy.1 xy.2 mem_size r.1 r.2 s
  { s1 with seen := s1.seen + 1 }

/-- The whole reservoir-update loop of lines 528-530 over the exemplars of
the current training batch. -/
def offerBatch (mem_size : Nat) (rand : Nat → Bool × Nat)
    (batch : List (Nat × Nat)) (s : MemState) : MemState :=
  batch.foldl (fun st xy => offerOne mem_size rand xy st) s

/-- The reservoir-update loop together with its offer trace: each
iteration records the exemplar offered and the value of
`examples_seen_so_far` at the moment of the offer. -/
def offerBatchT (mem_size : Nat) (rand : Nat → Bool × Nat) :
    List (Nat × Nat) → MemState × List ((Nat × Nat) × Nat) →
    MemState × List ((Nat × Nat) × Nat)
  | [], acc => acc
  | xy :: rest, (s, tr) =>
      offerBatchT mem_size rand rest (offerOne mem_size rand xy s, tr ++ [(xy, s.seen)])

/-- Modelled from the spec: the body of `update_fifo_buffer` lives in
`utils/utils.py`, which is not under src/ (only its import at line 27 and
its call sites at lines 483, 552, 595, 648 are). Spec sections 3 and 4.1:
one exemplar of class `c` is written at slot
`class_offset c + (count_cls c % per_class_quota)`, overwriting image and
label in place, and `count_cls c` is incremented on every write
regardless of wraparound. `class_offset` is the fixed base-slot
assignment of each class's quota region. -/
def fifoWriteOne (class_offset : Nat → Nat) (quota : Nat) (img cls : Nat)
    (s : MemState) : MemState :=
  let slot := class_offset cls + s.count_cls cls % quota
  { s with
    images := s.images.set slot img
    labels := s.labels.set slot cls
    count_cls := fun d => if d = cls then s.count_cls cls + 1 else s.count_cls d }

/-- Modelled from the spec: `update_fifo_buffer` over a whole mini-batch.
Spec section 4.1: the caller invokes the single-exemplar write once per
exemplar in the mini-batch. -/
def update_fifo_buffer (class_offset : Nat → Nat) (quota : Nat)
    (batch : List (Nat × Nat)) (s : MemState) : MemState :=
  batch.foldl (fun st xy => fifoWriteOne class_offset quota xy.1 xy.2 st) s

/-- A sequence of single-exemplar FIFO writes, together with the trace of
`(class, slot)` pairs actually written, in order. -/
def fifoRunT (class_offset : Nat → Nat) (quota : Nat) :
    List (Nat × Nat) → MemState × List (Nat × Nat) → MemState × List (Nat × Nat)
  | [], acc => acc
  | xy :: rest, (s, tr) =>
      fifoRunT class_offset quota rest
        (fifoWriteOne class_offset quota xy.1 xy.2 s,
         tr ++ [(xy.2, class_offset xy.2 + s.count_cls xy.2 % quota)])

/-- One buffer mutation step of a run: either a FIFO write of one
exemplar (A-GEM, ER-Ringbuffer, ER-SUBSPACE, ER-SUBSPACE-GP branches) or
one reservoir offer (ER-Reservoir branch, including the caller's counter
increment). Replay draws only read the arrays and are pure in this
embedding. -/
inductive MemOp where
  | fifoW (class_offset : Nat → Nat) (quota : Nat) (img cls : Nat)
  | resvW (mem_size : Nat) (img lab : Nat) (accept : Bool) (slot : Nat)

/-- Apply one buffer mutation. -/
def applyOp (s : MemState) : MemOp → MemState
  | MemOp.fifoW class_offset quota img cls => fifoWriteOne class_offset quota img cls s
  | MemOp.resvW mem_size img lab accept slot =>
      let s1 := update_reservior img lab mem_size accept slot s
      { s1 with seen := s1.seen + 1 }

/-- Apply a whole sequence of buffer mutations. -/
def applyOps (ops : List MemOp) (s : MemState) : MemState :=
  ops.foldl applyOp s

/-- Value of `episodic_filled_counter` at the start of task `t` of a run:
it starts at 0 (line 234) and line 689 adds `args.mem_size *
classes_per_task` once after each completed task. -/
def episodicFilledCounterAt (mem_size cpt : Nat) : Nat → Nat
  | 0 => 0
  | t + 1 => episodicFilledCounterAt mem_size cpt t + mem_size * cpt

/-- Trace of the `(task, episodic_filled_counter)` pairs passed to
`update_fifo_buffer` by the per-task training loop: for each task in the
list, every one of the `num_iters` mini-batch iterations passes the
current counter (lines 483, 552, 595, 648); the counter is incremented by
`mem_size * cpt` once when the task completes (line 689). -/
def taskLoopAux (mem_size cpt num_iters : Nat) :
    List Nat → Nat → List (Nat × Nat)
  | [], _ => []
  | t :: rest, counter =>
      (List.range num_iters).map (fun _ => (t, counter)) ++
        taskLoopAux mem_size cpt num_iters rest (counter + mem_size * cpt)

/-- The full per-run trace of FIFO base offsets: tasks `0, ..., nt-1`
(line 252), counter starting at 0 (line 234). -/
def taskLoopCounters (mem_size cpt num_tasks num_iters : Nat) : List (Nat × Nat) :=
  taskLoopAux mem_size cpt num_iters (List.range num_tasks) 0

/-- classes_per_task (line 197): `TOTAL_CLASSES // args.num_tasks`. -/
def classes_per_task (args_num_tasks : Nat) : Nat :=
  TOTAL_CLASSES / args_num_tasks

/-- label_array before the shuffle (lines 199-203): `arange(total_classes)`
in online-cross-validation mode, else
`arange(class_label_offset, total_classes + class_label_offset)` with
`class_label_offset = K_FOR_CROSS_VAL * classes_per_task`. -/
def labelArray (online_cross_val : Bool) (cpt total_classes : Nat) : List Nat :=
  if online_cross_val then List.range total_classes
  else (List.range total_classes).map (fun i => K_FOR_CROSS_VAL * cpt + i)

/-- task_labels built from the shuffled label array (lines 206-208): task
`tt` receives the slice `label_array[tt*cpt : tt*cpt + cpt]`. -/
def taskLabelsOf (label_array : List Nat) (num_tasks cpt : Nat) : List (List Nat) :=
  (List.range num_tasks).map (fun tt => (label_array.drop (tt * cpt)).take cpt)

/-- IEEE classification of the training loss value, as far as the
control flow of lines 656-658 can observe it: a finite number, one of the
two infinities, or NaN. -/
inductive LossVal where
  | num (q : Int)
  | posInf
  | negInf
  | nan
deriving DecidableEq

/-- math.isnan (line 656): true exactly on NaN. -/
def isnan : LossVal → Bool
  | LossVal.nan => true
  | _ => false

/-- Whether a loss value is finite: false on both infinities and NaN. -/
def isFiniteLoss : LossVal → Bool
  | LossVal.num _ => true
  | _ => false

/-- Outcome of a run's step loop, counting the training steps that were
executed. -/
inductive RunOutcome where
  | completed (steps : Nat)
  | exited (steps : Nat)
deriving DecidableEq

/-- The loss check of lines 656-658, folded over the sequence of losses
the training steps of a run produce: after each executed step, if
`math.isnan(loss)` the program calls `sys.exit(0)`, ending the whole run
with no further steps; otherwise the loop proceeds to the next step. -/
def lossCheckLoop : List LossVal → Nat → RunOutcome
  | [], n => RunOutcome.completed n
  | l :: rest, n =>
      if isnan l then RunOutcome.exited (n + 1) else lossCheckLoop rest (n + 1)

/-- Abstract deterministic pseudo-random number generator with state `S`:
`reseed s` is the state after `np.random.seed(s)` (line 192), and
`permFor st n` draws from state `st` a position permutation of
`List.range n` for `np.random.shuffle`, returning the advanced state. -/
structure RNG (S : Type) where
  reseed : Nat → S
  permFor : S → Nat → List Nat × S

/-- The run loop of lines 188-212 restricted to what determines
`task_labels`: each run re-seeds the generator with
`args.random_seed + runid` (line 192), shuffles the label array (line
205), chunks it into task label sets (lines 206-208), and then the rest
of the run consumes further randomness (`consume runid`), whose effect on
the generator state is arbitrary. -/
def runsTaskLabelsAux {S : Type} (rng : RNG S) (consume : Nat → S → S)
    (seed : Nat) (label_array : List Nat) (num_tasks cpt : Nat) :
    List Nat → S → List (List (List Nat))
  | [], _ => []
  | r :: rest, st =>
      let st0 := rng.reseed (seed + r)
      let pr := rng.permFor st0 label_array.length
      let tl := taskLabelsOf (npShuffle pr.1 label_array) num_tasks cpt
      tl :: runsTaskLabelsAux rng consume seed label_array num_tasks cpt rest
        (consume r pr.2)

/-- task_labels_dataset of a whole execution: runs `0, ..., num_runs-1`
(line 188), starting from generator state `st`. -/
def runsTaskLabels {S : Type} (rng : RNG S) (consume : Nat → S → S)
    (seed : Nat) (label_array : List Nat) (num_tasks cpt num_runs : Nat)
    (st : S) : List (List (List Nat)) :=
  runsTaskLabelsAux rng consume seed label_array num_tasks cpt
    (List.range num_runs) st

theorem npShuffle_perm (sp xs : List Nat) (h : sp.Perm (List.range xs.length)) :
    (npShuffle sp xs).Perm xs := by
  have h1 : (npShuffle sp xs).Perm (npShuffle (List.range xs.length) xs) :=
    List.Perm.map _ h
  have h2 : npShuffle (List.range xs.length) xs = xs := by
    unfold npShuffle
    apply List.ext_getElem
    · simp
    · intro i h1 h2
      simp [List.getD_eq_getElem?_getD, List.getElem?_eq_getElem h2]
  rw [h2] at h1
  exact h1

theorem perm_range_nodup {p : List Nat} {n : Nat}
    (hp : p.Perm (List.range n)) : p.Nodup :=
  hp.nodup_iff.mpr (List.nodup_range _)

theorem perm_range_length {p : List Nat} {n : Nat}
    (hp : p.Perm (List.range n)) : p.length = n := by
  simpa using hp.length_eq

theorem perm_range_mem_lt {p : List Nat} {n : Nat}
    (hp : p.Perm (List.range n)) : ∀ i ∈ p, i < n := by
  intro i hi
  have := hp.mem_iff.mp hi
  simpa using this

theorem npChoice_nodup {p : List Nat} {n k : Nat}
    (hp : p.Perm (List.range n)) : (npChoice p k).Nodup :=
  (perm_range_nodup hp).sublist (List.take_sublist k p)

theorem npChoice_mem_lt {p : List Nat} {n k : Nat}
    (hp : p.Perm (List.range n)) : ∀ i ∈ npChoice p k, i < n := by
  intro i hi
  exact perm_range_mem_lt hp i (List.mem_of_mem_take hi)

theorem npChoice_length {p : List Nat} {n k : Nat}
    (hp : p.Perm (List.range n)) (hk : k ≤ n) : (npChoice p k).length = k := by
  unfold npChoice
  rw [List.length_take, perm_range_length hp]
  omega

theorem erReservoirDraw_perm_of_le {filled k : Nat} {p : List Nat}
    (hp : p.Perm (List.range filled)) (h : filled ≤ k) :
    (erReservoirDraw filled k p).Perm (List.range filled) := by
  unfold erReservoirDraw
  by_cases hlt : filled < k
  · simp [hlt]
  · have hek : filled = k := by omega
    have hlen : p.length = k := by rw [perm_range_length hp, hek]
    simp only [hlt, if_false]
    unfold npChoice
    rw [← hlen, List.take_length]
    exact hp

theorem erRingbufferDraw_perm_of_le {filled k : Nat} {p : List Nat}
    (hp : p.Perm (List.range filled)) (h : filled ≤ k) :
    (erRingbufferDraw filled k p).Perm (List.range filled) := by
  unfold erRingbufferDraw
  simp [h]

theorem erReservoirDraw_eq_of_gt {filled k : Nat} {p : List Nat}
    (h : k < filled) : erReservoirDraw filled k p = npChoice p k := by
  unfold erReservoirDraw
  simp [Nat.not_lt.mpr (Nat.le_of_lt h)]

theorem erRingbufferDraw_eq_of_gt {filled k : Nat} {p : List Nat}
    (h : k < filled) : erRingbufferDraw filled k p = npChoice p k := by
  unfold erRingbufferDraw
  simp [Nat.not_le.mpr h]

theorem erReservoirDraw_nodup {filled k : Nat} {p : List Nat}
    (hp : p.Perm (List.range filled)) : (erReservoirDraw filled k p).Nodup := by
  unfold erReservoirDraw
  by_cases hlt : filled < k
  · simp [hlt, List.nodup_range]
  · simp only [hlt, if_false]
    exact npChoice_nodup hp

theorem erRingbufferDraw_nodup {filled k : Nat} {p : List Nat}
    (hp : p.Perm (List.range filled)) : (erRingbufferDraw filled k p).Nodup := by
  unfold erRingbufferDraw
  by_cases hle : filled ≤ k
  · simp [hle, List.nodup_range]
  · simp only [hle, if_false]
    exact npChoice_nodup hp

theorem erReservoirDraw_mem_lt {filled k : Nat} {p : List Nat}
    (hp : p.Perm (List.range filled)) :
    ∀ i ∈ erReservoirDraw filled k p, i < filled := by
  unfold erReservoirDraw
  by_cases hlt : filled < k
  · simp [hlt]
  · simp only [hlt, if_false]
    exact npChoice_mem_lt hp

theorem erRingbufferDraw_mem_lt {filled k : Nat} {p : List Nat}
    (hp : p.Perm (List.range filled)) :
    ∀ i ∈ erRingbufferDraw filled k p, i < filled := by
  unfold erRingbufferDraw
  by_cases hle : filled ≤ k
  · simp [hle]
  · simp only [hle, if_false]
    exact npChoice_mem_lt hp

/-- Claim C1: in the ER-Reservoir (lines 507-513) and ER-Ringbuffer
(lines 534-536) consumer branches, a replay index batch drawn from an
episodic memory with `filled` valid slots at requested size `k` has no
duplicate indices, draws only valid slots, equals the full slot set
`[0, filled)` when `filled ≤ k`, and has exactly `k` elements when
`filled > k`. Stated about the final (post-shuffle) er_mem_indices. -/
theorem C1_replay_batch_without_replacement
    (filled k : Nat) (p spR spB : List Nat)
    (hp : p.Perm (List.range filled))
    (hspR : spR.Perm (List.range (erReservoirDraw filled k p).length))
    (hspB : spB.Perm (List.range (erRingbufferDraw filled k p).length)) :
    ((erReservoirIndices filled k p spR).Nodup ∧
      (∀ i ∈ erReservoirIndices filled k p spR, i < filled) ∧
      (filled ≤ k → ∀ i, i ∈ erReservoirIndices filled k p spR ↔ i < filled) ∧
      (k < filled → (erReservoirIndices filled k p spR).length = k)) ∧
    ((erRingbufferIndices filled k p spB).Nodup ∧
      (∀ i ∈ erRingbufferIndices filled k p spB, i < filled) ∧
      (filled ≤ k → ∀ i, i ∈ erRingbufferIndices filled k p spB ↔ i < filled) ∧
      (k < filled → (erRingbufferIndices filled k p spB).length = k)) := by
  have hR : (erReservoirIndices filled k p spR).Perm (erReservoirDraw filled k p) :=
    npShuffle_perm _ _ hspR
  have hB : (erRingbufferIndices filled k p spB).Perm (erRingbufferDraw filled k p) :=
    npShuffle_perm _ _ hspB
  refine ⟨⟨hR.nodup_iff.mpr (erReservoirDraw_nodup hp), ?_, ?_, ?_⟩,
    hB.nodup_iff.mpr (erRingbufferDraw_nodup hp), ?_, ?_, ?_⟩
  · intro i hi
    exact erReservoirDraw_mem_lt hp i (hR.mem_iff.mp hi)
  · intro hle i
    have hperm := (hR.trans (erReservoirDraw_perm_of_le hp hle))
    rw [hperm.mem_iff, List.mem_range]
  · intro hgt
    rw [hR.length_eq, erReservoirDraw_eq_of_gt hgt]
    exact npChoice_length hp (Nat.le_of_lt hgt)
  · intro i hi
    exact erRingbufferDraw_mem_lt hp i (hB.mem_iff.mp hi)
  · intro hle i
    have hperm := (hB.trans (erRingbufferDraw_perm_of_le hp hle))
    rw [hperm.mem_iff, List.mem_range]
  · intro hgt
    rw [hB.length_eq, erRingbufferDraw_eq_of_gt hgt]
    exact npChoice_length hp (Nat.le_of_lt hgt)

/-- Concrete instance of C1: memory with 3 valid slots, batch size 2,
RNG permutation [2, 0, 1], shuffle positions [1, 0] for both branches. -/
theorem C1_replay_batch_without_replacement_witness :
    (([2, 0, 1] : List Nat).Perm (List.range 3) ∧
      ([1, 0] : List Nat).Perm (List.range (erReservoirDraw 3 2 [2, 0, 1]).length) ∧
      ([1, 0] : List Nat).Perm (List.range (erRingbufferDraw 3 2 [2, 0, 1]).length)) ∧
    (((erReservoirIndices 3 2 [2, 0, 1] [1, 0]).Nodup ∧
      (∀ i ∈ erReservoirIndices 3 2 [2, 0, 1] [1, 0], i < 3) ∧
      ((3 : Nat) ≤ 2 → ∀ i, i ∈ erReservoirIndices 3 2 [2, 0, 1] [1, 0] ↔ i < 3) ∧
      ((2 : Nat) < 3 → (erReservoirIndices 3 2 [2, 0, 1] [1, 0]).length = 2)) ∧
    ((erRingbufferIndices 3 2 [2, 0, 1] [1, 0]).Nodup ∧
      (∀ i ∈ erRingbufferIndices 3 2 [2, 0, 1] [1, 0], i < 3) ∧
      ((3 : Nat) ≤ 2 → ∀ i, i ∈ erRingbufferIndices 3 2 [2, 0, 1] [1, 0] ↔ i < 3) ∧
      ((2 : Nat) < 3 → (erRingbufferIndices 3 2 [2, 0, 1] [1, 0]).length = 2))) :=
  ⟨⟨by decide, by decide, by decide⟩,
    C1_replay_batch_without_replacement 3 2 [2, 0, 1] [1, 0] [1, 0]
      (by decide) (by decide) (by decide)⟩

theorem update_reservior_seen (img lab mem_size : Nat) (accept : Bool)
    (slot : Nat) (s : MemState) :
    (update_reservior img lab mem_size accept slot s).seen = s.seen := by
  unfold update_reservior
  by_cases h1 : s.seen < mem_size
  · simp [h1]
  · by_cases h2 : accept <;> simp [h1, h2]

theorem offerOne_seen (mem_size : Nat) (rand : Nat → Bool × Nat)
    (xy : Nat × Nat) (s : MemState) :
    (offerOne mem_size rand xy s).seen = s.seen + 1 := by
  unfold offerOne
  simp [update_reservior_seen]

theorem offerBatch_cons (mem_size : Nat) (rand : Nat → Bool × Nat)
    (xy : Nat × Nat) (batch : List (Nat × Nat)) (s : MemState) :
    offerBatch mem_size rand (xy :: batch) s =
      offerBatch mem_size rand batch (offerOne mem_size rand xy s) := rfl

theorem offerBatch_seen (mem_size : Nat) (rand : Nat → Bool × Nat)
    (batch : List (Nat × Nat)) (s : MemState) :
    (offerBatch mem_size rand batch s).seen = s.seen + batch.length := by
  induction batch generalizing s with
  | nil => simp [offerBatch]
  | cons xy rest ih =>
      rw [offerBatch_cons, ih, offerOne_seen]
      simp
      omega

theorem offerBatchT_spec (mem_size : Nat) (rand : Nat → Bool × Nat)
    (batch : List (Nat × Nat)) (s : MemState) (tr : List ((Nat × Nat) × Nat)) :
    offerBatchT mem_size rand batch (s, tr) =
      (offerBatch mem_size rand batch s,
       tr ++ batch.zip (List.range' s.seen batch.length)) := by
  induction batch generalizing s tr with
  | nil => simp [offerBatchT, offerBatch]
  | cons xy rest ih =>
      rw [offerBatchT, ih, offerBatch_cons]
      simp [offerOne_seen, List.range'_succ s.seen rest.length 1]

/-- Claim C2: in the ER-Reservoir branch (lines 527-530) every exemplar
of the current training batch is offered to the reservoir exactly once —
the offer trace is exactly the batch paired with the consecutive counter
values starting at the current `examples_seen_so_far` — and the counter
grows by exactly the batch length per mini-batch (hence by one per
offered exemplar, whether or not the offer wrote to the buffer), so over
a run that offers the batches of `batches` starting from the fresh
counter of line 235 it finally equals the total number `N` of offered
exemplars. Monotonicity and absence of resets are immediate from the two
equalities. -/
theorem C2_reservoir_counter_exact (mem_size cap : Nat)
    (rand : Nat → Bool × Nat) (batch : List (Nat × Nat))
    (batches : List (List (Nat × Nat))) (s : MemState) :
    ((offerBatchT mem_size rand batch (s, [])).2 =
        batch.zip (List.range' s.seen batch.length) ∧
      (offerBatchT mem_size rand batch (s, [])).2.map Prod.fst = batch) ∧
    (offerBatch mem_size rand batch s).seen = s.seen + batch.length ∧
    (batches.foldl (fun st b => offerBatch mem_size rand b st)
        (initMemState cap)).seen = (batches.map List.length).sum := by
  refine ⟨⟨?_, ?_⟩, offerBatch_seen mem_size rand batch s, ?_⟩
  · rw [offerBatchT_spec]
    simp
  · rw [offerBatchT_spec]
    simp [List.map_fst_zip _ _ (le_of_eq (List.length_range' _ _ _).symm)]
  · have key : ∀ (bs : List (List (Nat × Nat))) (st : MemState),
        (bs.foldl (fun acc b => offerBatch mem_size rand b acc) st).seen =
          st.seen + (bs.map List.length).sum := by
      intro bs
      induction bs with
      | nil => intro st; simp
      | cons b rest ih =>
          intro st
          simp only [List.foldl_cons, List.map_cons, List.sum_cons]
          rw [ih, offerBatch_seen]
          omega
    rw [key]
    simp [initMemState]

theorem episodicFilledCounterAt_eq (mem_size cpt t : Nat) :
    episodicFilledCounterAt mem_size cpt t = t * (mem_size * cpt) := by
  induction t with
  | zero => simp [episodicFilledCounterAt]
  | succ n ih =>
      rw [episodicFilledCounterAt, ih]
      ring

theorem taskLoopAux_spec (mem_size cpt num_iters : Nat) :
    ∀ (n t0 : Nat) (pr : Nat × Nat),
      pr ∈ taskLoopAux mem_size cpt num_iters (List.range' t0 n)
            (t0 * (mem_size * cpt)) →
      pr.2 = pr.1 * (mem_size * cpt) := by
  intro n
  induction n with
  | zero => intro t0 pr h; simp [taskLoopAux] at h
  | succ m ih =>
      intro t0 pr h
      rw [List.range'_succ t0 m 1, taskLoopAux, List.mem_append] at h
      rcases h with h | h
      · rcases List.mem_map.mp h with ⟨_, _, rfl⟩
        rfl
      · have : t0 * (mem_size * cpt) + mem_size * cpt =
            (t0 + 1) * (mem_size * cpt) := by ring
        rw [this] at h
        exact ih (t0 + 1) pr h

/-- Claim C3: the FIFO base offset `episodic_filled_counter` passed to
`update_fifo_buffer` at every mini-batch of task `t` (lines 483, 552,
595, 648) equals the counter value at the start of task `t`, which
equals `t * args.mem_size * classes_per_task`: within a task the loop
never changes the counter, and the single increment of line 689 adds
exactly `args.mem_size * classes_per_task` per completed task. -/
theorem C3_fifo_base_offset_fixed (mem_size cpt num_tasks num_iters : Nat)
    (pr : Nat × Nat)
    (hmem : pr ∈ taskLoopCounters mem_size cpt num_tasks num_iters) :
    pr.2 = episodicFilledCounterAt mem_size cpt pr.1 ∧
    pr.2 = pr.1 * (mem_size * cpt) := by
  have h2 : pr.2 = pr.1 * (mem_size * cpt) := by
    apply taskLoopAux_spec mem_size cpt num_iters num_tasks 0 pr
    simpa [taskLoopCounters, List.range_eq_range'] using hmem
  exact ⟨by rw [h2, episodicFilledCounterAt_eq], h2⟩

/-- Concrete instance of C3: mem_size 2, classes_per_task 3, 2 tasks, 2
iterations per task; the second call of task 1 passes base offset 6. -/
theorem C3_fifo_base_offset_fixed_witness :
    ((1, 6) ∈ taskLoopCounters 2 3 2 2 ∧
      (6 : Nat) = episodicFilledCounterAt 2 3 1 ∧ (6 : Nat) = 1 * (2 * 3)) :=
  ⟨by decide,
    (C3_fifo_base_offset_fixed 2 3 2 2 (1, 6) (by decide)).1,
    (C3_fifo_base_offset_fixed 2 3 2 2 (1, 6) (by decide)).2⟩

theorem npShuffle_exists {xs ys : List Nat} (hnd : xs.Nodup)
    (hperm : ys.Perm xs) :
    ∃ sp, sp.Perm (List.range xs.length) ∧ npShuffle sp xs = ys := by
  refine ⟨ys.map (fun y => xs.indexOf y), ?_, ?_⟩
  · have h1 : (ys.map (fun y => xs.indexOf y)).Perm
        (xs.map (fun y => xs.indexOf y)) := hperm.map _
    have h2 : xs.map (fun y => xs.indexOf y) = List.range xs.length := by
      apply List.ext_getElem
      · simp
      · intro i hi1 hi2
        simp only [List.getElem_map, List.getElem_range]
        exact List.indexOf_getElem hnd i (by simpa using hi1)
    rw [h2] at h1
    exact h1
  · unfold npShuffle
    rw [List.map_map]
    have h3 : ∀ y ∈ ys, ((fun i => xs.getD i 0) ∘ fun y => xs.indexOf y) y = y := by
      intro y hy
      have hmem : y ∈ xs := hperm.mem_iff.mp hy
      have hlt : xs.indexOf y < xs.length := List.indexOf_lt_length.mpr hmem
      simp only [Function.comp]
      rw [List.getD_eq_getElem _ _ hlt]
      exact List.getElem_indexOf hlt
    calc ys.map ((fun i => xs.getD i 0) ∘ fun y => xs.indexOf y)
        = ys.map id := List.map_congr_left h3
      _ = ys := List.map_id ys

theorem erSubspaceDraw_nodup (tt ms cpt : Nat) :
    (erSubspaceDraw tt ms cpt).Nodup := by
  unfold erSubspaceDraw
  refine List.Nodup.map ?_ (List.nodup_range _)
  intro a b hab
  simp only [] at hab
  omega

theorem erSubspaceDraw_mem (tt ms cpt : Nat) :
    ∀ i ∈ erSubspaceDraw tt ms cpt,
      tt * ms * cpt ≤ i ∧ i < tt * ms * cpt + ms * cpt := by
  intro i hi
  unfold erSubspaceDraw at hi
  rcases List.mem_map.mp hi with ⟨j, hj, rfl⟩
  have := List.mem_range.mp hj
  omega

/-- Counterexample to claim C4: the A-GEM reference-gradient draw (lines
459-463) is used without any shuffle. With 2 filled slots and requested
batch size 5, the RNG offers the shuffle position permutation [1, 0]; an
order-shuffled selection would be [1, 0], but the index list A-GEM feeds
to `episodic_images` is the raw ascending `np.arange` result [0, 1]. -/
theorem C4_agem_draw_unshuffled_counterexample :
    agemDraw 2 5 [0, 1] [1, 0] = [0, 1] ∧
    npShuffle [1, 0] (agemDraw 2 5 [0, 1] [1, 0]) = [1, 0] ∧
    ([1, 0] : List Nat).Perm (List.range 2) ∧
    agemDraw 2 5 [0, 1] [1, 0] ≠ npShuffle [1, 0] (agemDraw 2 5 [0, 1] [1, 0]) := by
  refine ⟨by decide, by decide, by decide, by decide⟩

/-- Claim C4 as amended: every replay selection drawn from episodic
memory in the ER-Reservoir (line 513), ER-Ringbuffer (line 536) and
ER-SUBSPACE / ER-SUBSPACE-GP task-replay (lines 563, 608) branches is
order-shuffled before use, in both cases of the sampling rule: the used
index list is a permutation of the drawn selection, and every ordering of
the drawn selection is attainable under some shuffle outcome. The A-GEM
reference-gradient draw (lines 459-463) is the exception: its used index
list is the raw draw, identical under every shuffle outcome the RNG could
offer. -/
theorem C4_replay_selections_shuffled_except_agem
    (filled k tt ms cpt : Nat) (p : List Nat)
    (hp : p.Perm (List.range filled)) :
    ((∀ sp, sp.Perm (List.range (erReservoirDraw filled k p).length) →
        (erReservoirIndices filled k p sp).Perm (erReservoirDraw filled k p)) ∧
      (∀ ys, ys.Perm (erReservoirDraw filled k p) →
        ∃ sp, sp.Perm (List.range (erReservoirDraw filled k p).length) ∧
          erReservoirIndices filled k p sp = ys)) ∧
    ((∀ sp, sp.Perm (List.range (erRingbufferDraw filled k p).length) →
        (erRingbufferIndices filled k p sp).Perm (erRingbufferDraw filled k p)) ∧
      (∀ ys, ys.Perm (erRingbufferDraw filled k p) →
        ∃ sp, sp.Perm (List.range (erRingbufferDraw filled k p).length) ∧
          erRingbufferIndices filled k p sp = ys)) ∧
    ((∀ sp, sp.Perm (List.range (erSubspaceDraw tt ms cpt).length) →
        (erSubspaceIndices tt ms cpt sp).Perm (erSubspaceDraw tt ms cpt)) ∧
      (∀ ys, ys.Perm (erSubspaceDraw tt ms cpt) →
        ∃ sp, sp.Perm (List.range (erSubspaceDraw tt ms cpt).length) ∧
          erSubspaceIndices tt ms cpt sp = ys)) ∧
    (∀ sp1 sp2, agemDraw filled k p sp1 = agemDraw filled k p sp2) := by
  refine ⟨⟨?_, ?_⟩, ⟨?_, ?_⟩, ⟨?_, ?_⟩, ?_⟩
  · intro sp hsp
    exact npShuffle_perm _ _ hsp
  · intro ys hys
    exact npShuffle_exists (erReservoirDraw_nodup hp) hys
  · intro sp hsp
    exact npShuffle_perm _ _ hsp
  · intro ys hys
    exact npShuffle_exists (erRingbufferDraw_nodup hp) hys
  · intro sp hsp
    exact npShuffle_perm _ _ hsp
  · intro ys hys
    exact npShuffle_exists (erSubspaceDraw_nodup tt ms cpt) hys
  · intro sp1 sp2
    rfl

/-- Concrete instance of the amended C4: 2 filled slots, batch size 5. -/
theorem C4_replay_selections_shuffled_except_agem_witness :
    ([1, 0] : List Nat).Perm (List.range 2) ∧
    ((∃ sp, sp.Perm (List.range (erReservoirDraw 2 5 [1, 0]).length) ∧
        erReservoirIndices 2 5 [1, 0] sp = [1, 0]) ∧
      agemDraw 2 5 [1, 0] [1, 0] = agemDraw 2 5 [1, 0] [0, 1]) := by
  refine ⟨by decide, ?_, ?_⟩
  · exact (C4_replay_selections_shuffled_except_agem 2 5 0 1 1 [1, 0]
      (by decide)).1.2 [1, 0] (by decide)
  · exact (C4_replay_selections_shuffled_except_agem 2 5 0 1 1 [1, 0]
      (by decide)).2.2.2 [1, 0] [0, 1]

theorem fifoWriteOne_lengths (class_offset : Nat → Nat) (quota img cls : Nat)
    (s : MemState) :
    (fifoWriteOne class_offset quota img cls s).images.length = s.images.length ∧
    (fifoWriteOne class_offset quota img cls s).labels.length = s.labels.length := by
  unfold fifoWriteOne
  simp

theorem update_reservior_lengths (img lab mem_size : Nat) (accept : Bool)
    (slot : Nat) (s : MemState) :
    (update_reservior img lab mem_size accept slot s).images.length = s.images.length ∧
    (update_reservior img lab mem_size accept slot s).labels.length = s.labels.length := by
  unfold update_reservior
  by_cases h1 : s.seen < mem_size
  · simp [h1]
  · by_cases h2 : accept <;> simp [h1, h2]

theorem applyOp_lengths (s : MemState) (op : MemOp) :
    (applyOp s op).images.length = s.images.length ∧
    (applyOp s op).labels.length = s.labels.length := by
  cases op with
  | fifoW class_offset quota img cls => exact fifoWriteOne_lengths _ _ _ _ _
  | resvW mem_size img lab accept slot =>
      unfold applyOp
      simp only []
      exact update_reservior_lengths _ _ _ _ _ _

theorem applyOps_lengths (ops : List MemOp) (s : MemState) :
    (applyOps ops s).images.length = s.images.length ∧
    (applyOps ops s).labels.length = s.labels.length := by
  induction ops generalizing s with
  | nil => exact ⟨rfl, rfl⟩
  | cons op rest ih =>
      have h1 := applyOp_lengths s op
      have h2 := ih (applyOp s op)
      unfold applyOps at h2 ⊢
      simp only [List.foldl_cons]
      omega

/-- Claim C5: the episodic buffer of a run is allocated once at run start
(lines 231-232) as zero-initialized parallel arrays of length
`capacity = args.mem_size * total_classes` (line 215), and no sequence of
buffer writes — FIFO writes or reservoir offers — ever changes either
length. Replay draws only read the arrays and are pure in this
embedding. -/
theorem C5_capacity_invariant (mem_size total_classes : Nat)
    (ops : List MemOp) :
    ((initMemState (episodic_mem_size mem_size total_classes)).images =
        List.replicate (episodic_mem_size mem_size total_classes) 0 ∧
      (initMemState (episodic_mem_size mem_size total_classes)).labels =
        List.replicate (episodic_mem_size mem_size total_classes) 0) ∧
    (initMemState (episodic_mem_size mem_size total_classes)).images.length =
      episodic_mem_size mem_size total_classes ∧
    (initMemState (episodic_mem_size mem_size total_classes)).labels.length =
      episodic_mem_size mem_size total_classes ∧
    (applyOps ops (initMemState (episodic_mem_size mem_size total_classes))).images.length =
      episodic_mem_size mem_size total_classes ∧
    (applyOps ops (initMemState (episodic_mem_size mem_size total_classes))).labels.length =
      episodic_mem_size mem_size total_classes := by
  have h := applyOps_lengths ops (initMemState (episodic_mem_size mem_size total_classes))
  have hi : (initMemState (episodic_mem_size mem_size total_classes)).images.length =
      episodic_mem_size mem_size total_classes := by
    simp [initMemState]
  have hl : (initMemState (episodic_mem_size mem_size total_classes)).labels.length =
      episodic_mem_size mem_size total_classes := by
    simp [initMemState]
  exact ⟨⟨rfl, rfl⟩, hi, hl, by omega, by omega⟩

/-- Number of writes for class `c` in a write sequence. -/
def classWriteCount (ws : List (Nat × Nat)) (c : Nat) : Nat :=
  (ws.filter (fun w => w.2 == c)).length

/-- Slots of the class-`c` writes of a `(class, slot)` trace, in order. -/
def classSlots (tr : List (Nat × Nat)) (c : Nat) : List Nat :=
  tr.filterMap (fun e => if e.1 = c then some e.2 else none)

theorem fifoRunT_fst (class_offset : Nat → Nat) (quota : Nat)
    (ws : List (Nat × Nat)) (s : MemState) (tr : List (Nat × Nat)) :
    (fifoRunT class_offset quota ws (s, tr)).1 =
      update_fifo_buffer class_offset quota ws s := by
  induction ws generalizing s tr with
  | nil => rfl
  | cons xy rest ih =>
      rw [fifoRunT, ih]
      rfl

theorem classSlots_append (tr1 tr2 : List (Nat × Nat)) (c : Nat) :
    classSlots (tr1 ++ tr2) c = classSlots tr1 c ++ classSlots tr2 c := by
  unfold classSlots
  rw [List.filterMap_append]

theorem fifoRunT_classSlots (class_offset : Nat → Nat) (quota : Nat)
    (ws : List (Nat × Nat)) (c : Nat) (s : MemState) (tr : List (Nat × Nat)) :
    classSlots (fifoRunT class_offset quota ws (s, tr)).2 c =
      classSlots tr c ++
        (List.range (classWriteCount ws c)).map
          (fun n => class_offset c + (s.count_cls c + n) % quota) ∧
    (fifoRunT class_offset quota ws (s, tr)).1.count_cls c =
      s.count_cls c + classWriteCount ws c := by
  induction ws generalizing s tr with
  | nil => simp [fifoRunT, classWriteCount]
  | cons xy rest ih =>
      rw [fifoRunT]
      have hrec := ih (fifoWriteOne class_offset quota xy.1 xy.2 s)
        (tr ++ [(xy.2, class_offset xy.2 + s.count_cls xy.2 % quota)])
      by_cases hc : xy.2 = c
      · subst hc
        have hcount : (fifoWriteOne class_offset quota xy.1 xy.2 s).count_cls xy.2 =
            s.count_cls xy.2 + 1 := by
          unfold fifoWriteOne
          simp
        have hwc : classWriteCount (xy :: rest) xy.2 =
            classWriteCount rest xy.2 + 1 := by
          unfold classWriteCount
          simp
        have htrc : classSlots [(xy.2, class_offset xy.2 + s.count_cls xy.2 % quota)] xy.2 =
            [class_offset xy.2 + s.count_cls xy.2 % quota] := by
          simp [classSlots]
        have htail : (List.range (classWriteCount rest xy.2)).map
            (fun n => class_offset xy.2 + (s.count_cls xy.2 + 1 + n) % quota) =
            (List.range (classWriteCount rest xy.2)).map
              ((fun n => class_offset xy.2 + (s.count_cls xy.2 + n) % quota) ∘ (· + 1)) := by
          apply List.map_congr_left
          intro a ha
          simp only [Function.comp]
          have harith : s.count_cls xy.2 + 1 + a = s.count_cls xy.2 + (a + 1) := by omega
          rw [harith]
        refine ⟨?_, ?_⟩
        · rw [hrec.1, hwc, classSlots_append, hcount, htrc,
            List.range_succ_eq_map, List.map_cons, List.map_map,
            List.append_assoc, List.singleton_append, htail]
          simp
        · rw [hrec.2, hcount, hwc]
          omega
      · have hcount : (fifoWriteOne class_offset quota xy.1 xy.2 s).count_cls c =
            s.count_cls c := by
          have hc2 : c ≠ xy.2 := fun h => hc h.symm
          unfold fifoWriteOne
          simp [hc2]
        have hwc : classWriteCount (xy :: rest) c = classWriteCount rest c := by
          unfold classWriteCount
          simp [hc]
        have htrc : classSlots (tr ++ [(xy.2, class_offset xy.2 + s.count_cls xy.2 % quota)]) c =
            classSlots tr c := by
          rw [classSlots_append]
          simp [classSlots, hc]
        refine ⟨?_, ?_⟩
        · rw [hrec.1, htrc, hwc, hcount]
        · rw [hrec.2, hcount, hwc]

/-- Claim C6: for every class `c` and every interleaved write sequence
`ws` processed by `update_fifo_buffer` from a fresh per-class counter,
the class-`c` writes land, in order, at slots
`class_offset c + (0 % quota), class_offset c + (1 % quota), ...` — the
n-th class-`c` write at `class_offset c + (n % quota)` regardless of
interleaved writes for other classes — and `count_cls c` ends at exactly
the number of class-`c` writes, incrementing on every such write
regardless of wraparound. -/
theorem C6_fifo_modulo_slots (class_offset : Nat → Nat) (quota : Nat)
    (ws : List (Nat × Nat)) (c : Nat) (s : MemState)
    (hc : s.count_cls c = 0) :
    classSlots (fifoRunT class_offset quota ws (s, [])).2 c =
      (List.range (classWriteCount ws c)).map
        (fun n => class_offset c + n % quota) ∧
    (update_fifo_buffer class_offset quota ws s).count_cls c =
      classWriteCount ws c := by
  have h := fifoRunT_classSlots class_offset quota ws c s []
  constructor
  · rw [h.1, hc]
    simp [classSlots]
  · rw [← fifoRunT_fst class_offset quota ws s [], h.2, hc]
    omega

/-- Concrete instance of C6, the end-to-end scenario of spec section 8:
quota 3, class offsets 0 and 3, four writes of class 0 interleaved with
two writes of class 1; class 0's slots are 0,1,2,0 (the fourth write
wraps onto slot 0) and class 1's counter ends at 2. -/
theorem C6_fifo_modulo_slots_witness :
    (initMemState 6).count_cls 0 = 0 ∧
    classSlots
        (fifoRunT (fun c => 3 * c) 3
          [(10, 0), (20, 1), (11, 0), (12, 0), (21, 1), (13, 0)]
          (initMemState 6, [])).2 0 =
      (List.range (classWriteCount
          [(10, 0), (20, 1), (11, 0), (12, 0), (21, 1), (13, 0)] 0)).map
        (fun n => (fun c => 3 * c) 0 + n % 3) ∧
    (update_fifo_buffer (fun c => 3 * c) 3
        [(10, 0), (20, 1), (11, 0), (12, 0), (21, 1), (13, 0)]
        (initMemState 6)).count_cls 0 =
      classWriteCount [(10, 0), (20, 1), (11, 0), (12, 0), (21, 1), (13, 0)] 0 :=
  ⟨rfl,
    (C6_fifo_modulo_slots (fun c => 3 * c) 3
      [(10, 0), (20, 1), (11, 0), (12, 0), (21, 1), (13, 0)] 0
      (initMemState 6) rfl).1,
    (C6_fifo_modulo_slots (fun c => 3 * c) 3
      [(10, 0), (20, 1), (11, 0), (12, 0), (21, 1), (13, 0)] 0
      (initMemState 6) rfl).2⟩

/-- Counterexample to claim C7: the loss check of line 656 is
`math.isnan(loss)`, which is false on an infinite loss. On the loss
sequence `[+inf, 0]` the run executes both steps and completes instead of
terminating at the first (non-finite) loss. -/
theorem C7_nonfinite_loss_counterexample :
    isFiniteLoss LossVal.posInf = false ∧
    lossCheckLoop [LossVal.posInf, LossVal.num 0] 0 = RunOutcome.completed 2 := by
  refine ⟨rfl, rfl⟩

/-- Claim C7 as amended: whenever the training loss computed at a
training step is NaN, the program treats it as fatal (line 658 calls
`sys.exit(0)`) and terminates the whole run immediately: the run executes
exactly the steps before the NaN plus the NaN step itself, never retrying
that step or proceeding to any further batch or task, whatever losses
would have followed. -/
theorem C7_nan_loss_fatal (pre post : List LossVal) (n : Nat)
    (hpre : ∀ l ∈ pre, isnan l = false) :
    lossCheckLoop (pre ++ LossVal.nan :: post) n =
      RunOutcome.exited (n + pre.length + 1) := by
  induction pre generalizing n with
  | nil => simp [lossCheckLoop, isnan]
  | cons l rest ih =>
      have hl : isnan l = false := hpre l (List.mem_cons_self l rest)
      have hrest : ∀ x ∈ rest, isnan x = false := by
        intro x hx
        exact hpre x (List.mem_cons_of_mem l hx)
      rw [List.cons_append, lossCheckLoop]
      rw [hl]
      simp only [Bool.false_eq_true, if_false]
      rw [ih (n + 1) hrest]
      congr 1
      simp
      omega

/-- Concrete instance of the amended C7: losses `[7, NaN, 2]` — the run
exits after executing exactly the two steps up to and including the NaN,
never reaching the third. -/
theorem C7_nan_loss_fatal_witness :
    (∀ l ∈ [LossVal.num 7], isnan l = false) ∧
    lossCheckLoop ([LossVal.num 7] ++ LossVal.nan :: [LossVal.num 2]) 0 =
      RunOutcome.exited (0 + [LossVal.num 7].length + 1) :=
  ⟨by decide, C7_nan_loss_fatal [LossVal.num 7] [LossVal.num 2] 0 (by decide)⟩

theorem taskLabelsOf_getD (l : List Nat) (n c i : Nat) (hi : i < n) :
    (taskLabelsOf l n c).getD i [] = (l.drop (i * c)).take c := by
  unfold taskLabelsOf
  rw [List.getD_eq_getElem _ _ (by simpa using hi)]
  simp

theorem chunk_sublist (l : List Nat) (a c : Nat) :
    ((l.drop a).take c).Sublist l :=
  (List.take_sublist _ _).trans (List.drop_sublist _ _)

theorem chunk_disjoint (l : List Nat) (c i j : Nat) (hnod : l.Nodup)
    (hij : i < j) :
    List.Disjoint ((l.drop (i * c)).take c) ((l.drop (j * c)).take c) := by
  have h1 : (l.drop (i * c)).take c = (l.take (i * c + c)).drop (i * c) :=
    List.take_drop (i * c) c l
  have h2 : i * c + c ≤ j * c := by
    have ha : (i + 1) * c ≤ j * c := Nat.mul_le_mul_right c hij
    have hb : (i + 1) * c = i * c + c := by ring
    omega
  have hd : List.Disjoint (l.take (i * c + c)) (l.drop (j * c)) :=
    List.disjoint_take_drop hnod h2
  intro a ha1 ha2
  have ha1b : a ∈ l.take (i * c + c) := by
    rw [h1] at ha1
    exact (List.drop_sublist _ _).subset ha1
  have ha2b : a ∈ l.drop (j * c) := (List.take_sublist _ _).subset ha2
  exact hd ha1b ha2b

/-- Claim C8: the generated `task_labels` (lines 196-208) is a
partition-like family: it has one class set per task of the run, each set
holds exactly `classes_per_task = TOTAL_CLASSES // args.num_tasks`
distinct class labels, and the sets are pairwise disjoint — no class
label appears in more than one task of the same run. Hypotheses: the
shuffled label array is a permutation of `label_array` (line 205), and
the family ranges over `model.num_tasks` tasks whose label pool
`total_classes = classes_per_task * model.num_tasks` (line 198) fills the
array. -/
theorem C8_task_labels_partition (args_num_tasks model_num_tasks : Nat)
    (online : Bool) (shuffled : List Nat)
    (hperm : shuffled.Perm (labelArray online (classes_per_task args_num_tasks)
      (classes_per_task args_num_tasks * model_num_tasks))) :
    (taskLabelsOf shuffled model_num_tasks (classes_per_task args_num_tasks)).length =
      model_num_tasks ∧
    (∀ tl ∈ taskLabelsOf shuffled model_num_tasks (classes_per_task args_num_tasks),
      tl.length = classes_per_task args_num_tasks ∧ tl.Nodup) ∧
    (∀ i j, i < j → j < model_num_tasks →
      List.Disjoint
        ((taskLabelsOf shuffled model_num_tasks (classes_per_task args_num_tasks)).getD i [])
        ((taskLabelsOf shuffled model_num_tasks (classes_per_task args_num_tasks)).getD j [])) := by
  set c := classes_per_task args_num_tasks with hc
  have hlen : shuffled.length = c * model_num_tasks := by
    rw [hperm.length_eq]
    unfold labelArray
    by_cases ho : online <;> simp [ho]
  have hnod : shuffled.Nodup := by
    refine hperm.nodup_iff.mpr ?_
    unfold labelArray
    by_cases ho : online
    · simp [ho, List.nodup_range]
    · simp only [ho, if_false]
      refine List.Nodup.map ?_ (List.nodup_range _)
      intro a b hab
      simp only [] at hab
      omega
  refine ⟨by simp [taskLabelsOf], ?_, ?_⟩
  · intro tl htl
    unfold taskLabelsOf at htl
    rcases List.mem_map.mp htl with ⟨tt, htt, rfl⟩
    have htt2 : tt < model_num_tasks := List.mem_range.mp htt
    constructor
    · rw [List.length_take, List.length_drop, hlen]
      have hb : tt * c + c ≤ c * model_num_tasks := by
        have h1 : (tt + 1) * c ≤ model_num_tasks * c :=
          Nat.mul_le_mul_right c htt2
        have h2 : model_num_tasks * c = c * model_num_tasks := Nat.mul_comm _ _
        have h3 : (tt + 1) * c = tt * c + c := by ring
        omega
      omega
    · exact hnod.sublist (chunk_sublist shuffled (tt * c) c)
  · intro i j hij hj
    have hi : i < model_num_tasks := Nat.lt_trans hij hj
    rw [taskLabelsOf_getD shuffled model_num_tasks c i hi,
      taskLabelsOf_getD shuffled model_num_tasks c j hj]
    exact chunk_disjoint shuffled c i j hnod hij

/-- Concrete instance of C8: 50 requested tasks over the 100-class space
gives 2 classes per task; a family of 2 tasks over the shuffled pool
[2, 0, 3, 1]. -/
theorem C8_task_labels_partition_witness :
    ([2, 0, 3, 1] : List Nat).Perm
      (labelArray true (classes_per_task 50) (classes_per_task 50 * 2)) ∧
    ((taskLabelsOf [2, 0, 3, 1] 2 (classes_per_task 50)).length = 2 ∧
      (∀ tl ∈ taskLabelsOf [2, 0, 3, 1] 2 (classes_per_task 50),
        tl.length = classes_per_task 50 ∧ tl.Nodup) ∧
      (∀ i j, i < j → j < 2 →
        List.Disjoint ((taskLabelsOf [2, 0, 3, 1] 2 (classes_per_task 50)).getD i [])
          ((taskLabelsOf [2, 0, 3, 1] 2 (classes_per_task 50)).getD j []))) :=
  ⟨by decide, C8_task_labels_partition 50 2 true [2, 0, 3, 1] (by decide)⟩

theorem episodicFilledCounterAt_le_cap (ms cpt nt t : Nat) (ht : t ≤ nt) :
    episodicFilledCounterAt ms cpt t ≤ episodic_mem_size ms (cpt * nt) := by
  rw [episodicFilledCounterAt_eq]
  have h1 : t * (ms * cpt) ≤ nt * (ms * cpt) :=
    Nat.mul_le_mul_right (ms * cpt) ht
  have h2 : episodic_mem_size ms (cpt * nt) = nt * (ms * cpt) := by
    unfold episodic_mem_size
    ring
  omega

/-- Claim C9: every slot index used to read the episodic memory in a
replay-sampling branch is below `episodic_mem_size = args.mem_size *
total_classes` (with `total_classes = classes_per_task * model.num_tasks`,
line 198). `episodic_filled_counter` never exceeds the capacity at any
point of a run with `nt` tasks; the A-GEM draw reads below the counter of
the current task; the ER-Reservoir and ER-Ringbuffer reads are capped by
the min computations of lines 508 and 534; the ER-SUBSPACE and
ER-SUBSPACE-GP region reads use `tt < task`, so their region ends at or
below the capacity. -/
theorem C9_replay_reads_in_bounds (ms cpt nt k task tt seen : Nat)
    (p1 sp1 p2 sp2 p3 sp3 sp4 : List Nat)
    (htask : task < nt) (htt : tt < task)
    (hp1 : p1.Perm (List.range (episodicFilledCounterAt ms cpt task)))
    (hp2 : p2.Perm (List.range
      (reservoirFilled seen (episodic_mem_size ms (cpt * nt)))))
    (hp3 : p3.Perm (List.range
      (ringbufferFilled (episodicFilledCounterAt ms cpt task)
        (episodic_mem_size ms (cpt * nt)))))
    (hsp2 : sp2.Perm (List.range
      (erReservoirDraw (reservoirFilled seen (episodic_mem_size ms (cpt * nt)))
        k p2).length))
    (hsp3 : sp3.Perm (List.range
      (erRingbufferDraw (ringbufferFilled (episodicFilledCounterAt ms cpt task)
        (episodic_mem_size ms (cpt * nt))) k p3).length))
    (hsp4 : sp4.Perm (List.range (erSubspaceDraw tt ms cpt).length)) :
    (∀ t2, t2 ≤ nt →
      episodicFilledCounterAt ms cpt t2 ≤ episodic_mem_size ms (cpt * nt)) ∧
    (∀ i ∈ agemDraw (episodicFilledCounterAt ms cpt task) k p1 sp1,
      i < episodic_mem_size ms (cpt * nt)) ∧
    (∀ i ∈ erReservoirIndices
        (reservoirFilled seen (episodic_mem_size ms (cpt * nt))) k p2 sp2,
      i < episodic_mem_size ms (cpt * nt)) ∧
    (∀ i ∈ erRingbufferIndices
        (ringbufferFilled (episodicFilledCounterAt ms cpt task)
          (episodic_mem_size ms (cpt * nt))) k p3 sp3,
      i < episodic_mem_size ms (cpt * nt)) ∧
    (∀ i ∈ erSubspaceIndices tt ms cpt sp4,
      i < episodic_mem_size ms (cpt * nt)) := by
  have hcap : ∀ t2, t2 ≤ nt →
      episodicFilledCounterAt ms cpt t2 ≤ episodic_mem_size ms (cpt * nt) :=
    fun t2 ht2 => episodicFilledCounterAt_le_cap ms cpt nt t2 ht2
  refine ⟨hcap, ?_, ?_, ?_, ?_⟩
  · intro i hi
    have hlt : i < episodicFilledCounterAt ms cpt task := by
      unfold agemDraw at hi
      by_cases hle : episodicFilledCounterAt ms cpt task ≤ k
      · rw [if_pos hle] at hi
        exact List.mem_range.mp hi
      · rw [if_neg hle] at hi
        exact npChoice_mem_lt hp1 i hi
    exact Nat.lt_of_lt_of_le hlt (hcap task (Nat.le_of_lt htask))
  · intro i hi
    have hmem := (npShuffle_perm _ _ hsp2).mem_iff.mp hi
    have hlt := erReservoirDraw_mem_lt hp2 i hmem
    have hfb : reservoirFilled seen (episodic_mem_size ms (cpt * nt)) ≤
        episodic_mem_size ms (cpt * nt) := by
      unfold reservoirFilled
      by_cases h : seen < episodic_mem_size ms (cpt * nt) <;> simp [h]
      omega
    omega
  · intro i hi
    have hmem := (npShuffle_perm _ _ hsp3).mem_iff.mp hi
    have hlt := erRingbufferDraw_mem_lt hp3 i hmem
    have hfb : ringbufferFilled (episodicFilledCounterAt ms cpt task)
        (episodic_mem_size ms (cpt * nt)) ≤ episodic_mem_size ms (cpt * nt) := by
      unfold ringbufferFilled
      by_cases h : episodicFilledCounterAt ms cpt task ≤
          episodic_mem_size ms (cpt * nt) <;> simp [h]
    omega
  · intro i hi
    have hmem := (npShuffle_perm _ _ hsp4).mem_iff.mp hi
    have hb := erSubspaceDraw_mem tt ms cpt i hmem
    have h1 : tt * ms * cpt + ms * cpt ≤ episodic_mem_size ms (cpt * nt) := by
      have h2 : (tt + 1) * (ms * cpt) ≤ nt * (ms * cpt) :=
        Nat.mul_le_mul_right (ms * cpt) (by omega)
      have h3 : (tt + 1) * (ms * cpt) = tt * ms * cpt + ms * cpt := by ring
      have h4 : episodic_mem_size ms (cpt * nt) = nt * (ms * cpt) := by
        unfold episodic_mem_size
        ring
      omega
    omega

/-- Concrete instance of C9: mem_size 1, 1 class per task, 2 tasks, batch
size 5; the run is in task 1 replaying task 0 after seeing 3 samples. -/
theorem C9_replay_reads_in_bounds_witness :
    ((1 : Nat) < 2 ∧ (0 : Nat) < 1 ∧
      ([0] : List Nat).Perm (List.range (episodicFilledCounterAt 1 1 1)) ∧
      ([1, 0] : List Nat).Perm (List.range
        (reservoirFilled 3 (episodic_mem_size 1 (1 * 2)))) ∧
      ([0] : List Nat).Perm (List.range
        (ringbufferFilled (episodicFilledCounterAt 1 1 1)
          (episodic_mem_size 1 (1 * 2))))) ∧
    ((∀ t2, t2 ≤ 2 →
        episodicFilledCounterAt 1 1 t2 ≤ episodic_mem_size 1 (1 * 2)) ∧
      (∀ i ∈ agemDraw (episodicFilledCounterAt 1 1 1) 5 [0] [0],
        i < episodic_mem_size 1 (1 * 2)) ∧
      (∀ i ∈ erReservoirIndices (reservoirFilled 3 (episodic_mem_size 1 (1 * 2)))
          5 [1, 0] [1, 0],
        i < episodic_mem_size 1 (1 * 2)) ∧
      (∀ i ∈ erRingbufferIndices
          (ringbufferFilled (episodicFilledCounterAt 1 1 1)
            (episodic_mem_size 1 (1 * 2))) 5 [0] [0],
        i < episodic_mem_size 1 (1 * 2)) ∧
      (∀ i ∈ erSubspaceIndices 0 1 1 [0],
        i < episodic_mem_size 1 (1 * 2))) :=
  ⟨⟨by decide, by decide, by decide, by decide, by decide⟩,
    C9_replay_reads_in_bounds 1 1 2 5 1 0 3 [0] [0] [1, 0] [1, 0] [0] [0] [0]
      (by decide) (by decide) (by decide) (by decide) (by decide)
      (by decide) (by decide) (by decide)⟩

theorem runsTaskLabelsAux_eq_map {S : Type} (rng : RNG S)
    (consume : Nat → S → S) (seed : Nat) (la : List Nat) (nt cpt : Nat)
    (rl : List Nat) (st : S) :
    runsTaskLabelsAux rng consume seed la nt cpt rl st =
      rl.map (fun r =>
        taskLabelsOf (npShuffle (rng.permFor (rng.reseed (seed + r)) la.length).1 la)
          nt cpt) := by
  induction rl generalizing st with
  | nil => rfl
  | cons r rest ih =>
      rw [runsTaskLabelsAux, ih]
      rfl

/-- Claim C10: the per-run class-to-task partitions are a deterministic
function of the arguments. Because each run re-seeds the generator with
`args.random_seed + runid` before drawing the label permutation (lines
192 and 205), two executions that differ arbitrarily in how much
randomness the rest of each run consumes, and in the generator state they
start from, produce identical `task_labels_dataset`; and run `runid`
depends only on `seed + runid`, not on earlier runs. -/
theorem C10_partition_deterministic {S : Type} (rng : RNG S)
    (consume1 consume2 : Nat → S → S) (seed : Nat) (la : List Nat)
    (nt cpt num_runs : Nat) (st1 st2 : S) :
    runsTaskLabels rng consume1 seed la nt cpt num_runs st1 =
      runsTaskLabels rng consume2 seed la nt cpt num_runs st2 ∧
    (∀ r, r < num_runs →
      (runsTaskLabels rng consume1 seed la nt cpt num_runs st1).getD r [] =
        taskLabelsOf
          (npShuffle (rng.permFor (rng.reseed (seed + r)) la.length).1 la)
          nt cpt) := by
  constructor
  · rw [runsTaskLabels, runsTaskLabels, runsTaskLabelsAux_eq_map,
      runsTaskLabelsAux_eq_map]
  · intro r hr
    rw [runsTaskLabels, runsTaskLabelsAux_eq_map]
    rw [List.getD_eq_getElem _ _ (by simpa using hr)]
    simp

/-- Concrete instance of C10: a two-element label pool, identity-like
generator, two different consumption functions and start states. -/
theorem C10_partition_deterministic_witness :
    (runsTaskLabels (RNG.mk (fun s => s) (fun st n => (List.range n, st)))
        (fun _ s => s) 0 [5, 6] 1 2 1 0 =
      runsTaskLabels (RNG.mk (fun s => s) (fun st n => (List.range n, st)))
        (fun _ s => s + 7) 0 [5, 6] 1 2 1 3) ∧
    ((0 : Nat) < 1 ∧
      (runsTaskLabels (RNG.mk (fun s => s) (fun st n => (List.range n, st)))
          (fun _ s => s) 0 [5, 6] 1 2 1 0).getD 0 [] =
        taskLabelsOf
          (npShuffle ((RNG.mk (fun s => s) (fun st n => (List.range n, st)) : RNG Nat).permFor
            ((RNG.mk (fun s => s) (fun st n => (List.range n, st)) : RNG Nat).reseed (0 + 0))
            ([5, 6] : List Nat).length).1 [5, 6]) 1 2) :=
  ⟨(C10_partition_deterministic (RNG.mk (fun s => s) (fun st n => (List.range n, st)))
      (fun _ s => s) (fun _ s => s + 7) 0 [5, 6] 1 2 1 0 3).1,
    by decide,
    (C10_partition_deterministic (RNG.mk (fun s => s) (fun st n => (List.range n, st)))
      (fun _ s => s) (fun _ s => s + 7) 0 [5, 6] 1 2 1 0 3).2 0 (by decide)⟩

end OrthogSubspace
